import Mathlib

/-!
Verification of the hannk operator-execution layer (apps/hannk/interpreter/ops.cpp).

The C++ code is shallowly embedded: machine integers become `Int` (overflow is
irrelevant on the ranges exercised here and asserted in the source), C `double`
values become `Rat` (every constant the claims touch is a dyadic rational that a
double represents exactly), buffers become lists of `halide_dimension_t` records,
and fatal errors (`CHECK(false)`, `LOG(FATAL)`, failed `assert`) become `Option`
results or explicit outcome tags.  Definitions carry the source names.  Pieces of
the repository that are not under src/ (the BoundsMap combinators of
interpreter/interval.h, the generated numeric kernels, `align_up`) are modelled
from the spec and say so in their doc comments.
-/

namespace hannk

/-- Inclusive integer range, as in interpreter/interval.h (fields `min`, `max`). -/
structure Interval where
  min : ℤ
  max : ℤ
deriving DecidableEq

/-- Membership in an inclusive interval. -/
def Interval.contains (i : Interval) (x : ℤ) : Prop :=
  i.min ≤ x ∧ x ≤ i.max

instance (i : Interval) (x : ℤ) : Decidable (i.contains x) := by
  unfold Interval.contains; infer_instance

/-- Model of C `std::round` on the exact rational value: round half away from zero. -/
def roundQ (x : ℚ) : ℤ :=
  if x < 0 then -⌊-x + 1/2⌋ else ⌊x + 1/2⌋

/-- Model of C `std::frexp`: for m different from 0 it returns the unique pair
    (q, e) with m = q * 2 ^ e and 1/2 ≤ |q| < 1; for 0 it returns (0, 0). -/
def frexpQ (m : ℚ) : ℚ × ℤ :=
  if m = 0 then (0, 0)
  else
    ((m / 2 ^ (Int.log 2 |m| + 1) : ℚ), Int.log 2 |m| + 1)

/-- Integer multiplier together with a binary exponent, as in ops.cpp
    (`struct QuantizedMulAndShift`; both fields are C `int`). -/
structure QuantizedMulAndShift where
  multiplier : ℤ
  shift : ℤ
deriving DecidableEq

/-- Second phase of `get_quantized_mul_and_shift` in ops.cpp, operating on the
    frexp decomposition (q, e) of the multiplier: fixed-point rounding of the
    mantissa `q_fixed = round(q * 2 ^ (bits - 1))`, halving of the mantissa and
    increment of the shift when the rounding overflows to exactly
    2 ^ (bits - 1), and the underflow clamp to (0, 0) when the resulting shift
    falls below -(bits - 1). -/
def gqmas_core (q : ℚ) (e : ℤ) (bits : ℕ) : QuantizedMulAndShift :=
  if roundQ (q * 2 ^ (bits - 1)) = 2 ^ (bits - 1) then
    if e + 1 < -((bits : ℤ) - 1) then ⟨0, 0⟩
    else ⟨roundQ (q * 2 ^ (bits - 1)) / 2, e + 1⟩
  else
    if e < -((bits : ℤ) - 1) then ⟨0, 0⟩
    else ⟨roundQ (q * 2 ^ (bits - 1)), e⟩

/-- The function `get_quantized_mul_and_shift` of ops.cpp (lines 144-166):
    returns (0, 0) for a zero multiplier, otherwise splits the multiplier with
    frexp and rounds the mantissa into `bits` bits of signed precision. -/
def get_quantized_mul_and_shift (double_multiplier : ℚ) (bits : ℕ) : QuantizedMulAndShift :=
  if double_multiplier = 0 then ⟨0, 0⟩
  else gqmas_core (frexpQ double_multiplier).1 (frexpQ double_multiplier).2 bits

/-- The function `get_quantized_mul_and_shift_smaller_than_one` of ops.cpp
    (lines 168-173): identical computation; the C++ version additionally asserts
    0 ≤ m < 1 on entry and shift ≤ 0 on exit (the subject of claim C5). -/
def get_quantized_mul_and_shift_smaller_than_one (double_multiplier : ℚ) (bits : ℕ) :
    QuantizedMulAndShift :=
  get_quantized_mul_and_shift double_multiplier bits

/-- The activation kinds handled by `get_quantized_min_max` in ops.cpp. -/
inductive ActivationFunction
  | None
  | Relu
  | Relu6
  | ReluN1To1
deriving DecidableEq

/-- The function `get_quantized_min_max` of ops.cpp (lines 175-192): the clamp
    interval implied by an activation function, in the quantized output domain,
    clamped into [0, 255]. -/
def get_quantized_min_max (activation : ActivationFunction) (zero_point : ℤ) (scale : ℚ) :
    Interval :=
  let mm : ℤ × ℤ :=
    match activation with
    | .None => (0, 255)
    | .Relu => (zero_point, 255)
    | .Relu6 => (zero_point, zero_point + roundQ (6 / scale))
    | .ReluN1To1 => (zero_point + roundQ (-1 / scale), zero_point + roundQ (1 / scale))
  ⟨max mm.1 0, min mm.2 255⟩

/-- One dimension of a strided buffer view (`halide_dimension_t`: min, extent,
    stride). -/
structure HalideDim where
  min : ℤ
  extent : ℤ
  stride : ℤ
deriving DecidableEq

/-- Reading `buf.dim(d)`; out-of-range reads never occur on the guarded paths
    modelled here, the default is arbitrary. -/
def dimOf (dims : List HalideDim) (d : ℕ) : HalideDim :=
  dims.getD d ⟨0, 0, 0⟩

/-- Largest index covered by a dimension (`buf.dim(d).max()`). -/
def HalideDim.maxIdx (dim : HalideDim) : ℤ :=
  dim.min + dim.extent - 1

/-- The function `can_fuse` of ops.cpp (lines 33-42): dimensions d0 and d1 of a
    buffer can be fused when both are in range, d0 has min 0, d1 has positive
    stride, and the stride of d1 equals extent times stride of d0. -/
def can_fuse (dims : List HalideDim) (d0 d1 : ℕ) : Bool :=
  decide (d0 < dims.length) &&
  decide (d1 < dims.length) &&
  decide ((dimOf dims d0).min = 0) &&
  decide (0 < (dimOf dims d1).stride) &&
  decide ((dimOf dims d1).stride = (dimOf dims d0).extent * (dimOf dims d0).stride)

/-- The function `fuse` of ops.cpp (lines 52-62) for d0 < d1: the extent of d0
    is multiplied by the extent of d1, the dimensions above d1 shift down one
    slot, and the last dimension is sliced away - together: erase index d1. -/
def fuse (dims : List HalideDim) (d0 d1 : ℕ) : List HalideDim :=
  (dims.set d0
    { dimOf dims d0 with extent := (dimOf dims d0).extent * (dimOf dims d1).extent }).eraseIdx d1

/-- The function `pad_to_rank` of ops.cpp (lines 72-78): embed extent-1
    dimensions at the end until the buffer has the given rank. -/
def pad_to_rank (dims : List HalideDim) (rank : ℕ) : List HalideDim :=
  dims ++ List.replicate (rank - dims.length) ⟨0, 1, 0⟩

/-- Loop body of `broadcast_shapes` in ops.cpp (lines 105-123), one dimension at
    a time over the two already-padded shapes: a dimension of extent 1 in one
    operand takes the extent of the other operand and stride 0; when neither
    operand has extent 1 the code hits LOG(FATAL), modelled as `none`.  Note the
    source has no early case for equal extents. -/
def broadcast_go : List HalideDim → List HalideDim → Option (List HalideDim × List HalideDim)
  | [], [] => some ([], [])
  | da :: as, db :: bs =>
    if da.extent = 1 then
      match broadcast_go as bs with
      | some (as2, bs2) => some ({ da with extent := db.extent, stride := 0 } :: as2, db :: bs2)
      | none => none
    else if db.extent = 1 then
      match broadcast_go as bs with
      | some (as2, bs2) => some (da :: as2, { db with extent := da.extent, stride := 0 } :: bs2)
      | none => none
    else none
  | _, _ => none

/-- The function `broadcast_shapes` of ops.cpp (lines 105-123): pad both shapes
    to the requested rank, then run the per-dimension broadcast loop. -/
def broadcast_shapes (a b : List HalideDim) (rank : ℕ) :
    Option (List HalideDim × List HalideDim) :=
  broadcast_go (pad_to_rank a rank) (pad_to_rank b rank)

/-- Per-tensor quantization parameters (QuantizationInfo of interpreter/model.h):
    a vector of scales and a vector of zero points, compared componentwise by
    the `inq == outq` test in `requantize`. -/
structure QuantizationInfo where
  scale : List ℚ
  zero : List ℤ
deriving DecidableEq

/-- The function `is_alias` of ops.cpp (lines 125-127) on the half-open byte
    ranges of the two views: true iff the ranges overlap. -/
def is_alias (aBegin aEnd bBegin bEnd : ℤ) : Bool :=
  !(decide (bEnd ≤ aBegin) || decide (aEnd ≤ bBegin))

/-- The three control paths of `requantize` in ops.cpp (lines 289-303). -/
inductive RequantizePath
  | skipAliased
  | copyBytes
  | addRescale
deriving DecidableEq

/-- Path selection of `requantize` (ops.cpp lines 289-303): with identical
    QuantizationInfo it returns immediately when the views alias and copies the
    bytes otherwise; with differing QuantizationInfo it routes through `add`
    with a zero second operand sign. -/
def requantize_path (inq outq : QuantizationInfo) (inBegin inEnd outBegin outEnd : ℤ) :
    RequantizePath :=
  if inq = outq then
    if is_alias inBegin inEnd outBegin outEnd then .skipAliased else .copyBytes
  else .addRescale

/-- Effect of `requantize` on the output bytes, by path: the copy path writes
    the input bytes, the aliased path leaves the output untouched, and the
    rescale path goes through the `add` kernel (not a bytewise copy), here
    `none`. -/
def requantize_contents (inq outq : QuantizationInfo) (inBegin inEnd outBegin outEnd : ℤ)
    (inBytes outBytes : List ℤ) : Option (List ℤ) :=
  match requantize_path inq outq inBegin inEnd outBegin outEnd with
  | .copyBytes => some inBytes
  | .skipAliased => some outBytes
  | .addRescale => none

/-- Element types that occur in the interpreter (halide_type_t in the dtype
    dispatch of the execute methods). -/
inductive HalideElemType
  | u8
  | i32
  | f32
deriving DecidableEq

/-- Outcome of an execute call for the purpose of the dtype-dispatch claims:
    abort via CHECK(false), run a kernel, or fall through doing nothing. -/
inductive ExecOutcome
  | fatal
  | ranKernel
  | silentNoop
deriving DecidableEq

/-- Dtype dispatch of `BinaryOp::execute` (ops.cpp lines 327-354): all-uint8
    runs the add or mul kernel, anything else hits CHECK(false). -/
def BinaryOp.execute_outcome (t1 t2 tout : HalideElemType) : ExecOutcome :=
  if t1 = .u8 ∧ t2 = .u8 ∧ tout = .u8 then .ranKernel else .fatal

/-- Dtype dispatch of `ReductionOp::execute` (ops.cpp lines 855-880): the
    uint8/uint8 Mean case runs the mean kernel; every other combination falls
    off the end of the function with no else branch and no CHECK. -/
def ReductionOp.execute_outcome (tin tout : HalideElemType) : ExecOutcome :=
  if tin = .u8 ∧ tout = .u8 then .ranKernel else .silentNoop

/-- The unary operators of `UnaryOp` in ops.cpp. -/
inductive UnaryOperator
  | Logistic
  | Tanh
deriving DecidableEq

/-- Dtype dispatch of `UnaryOp::execute` (ops.cpp lines 994-1035): the
    uint8/uint8 case runs the logistic or tanh kernel; the outer type test has
    no else branch, so any other combination falls through doing nothing. -/
def UnaryOp.execute_outcome (tin tout : HalideElemType) (op : UnaryOperator) : ExecOutcome :=
  if tin = .u8 ∧ tout = .u8 then
    match op with
    | .Logistic => .ranKernel
    | .Tanh => .ranKernel
  else .silentNoop

/-- Modelled from the spec: `align_up(x, n)` of the hannk util headers (not
    under src/) rounds x up to the next multiple of n.  On the nonnegative
    operands used here Euclidean and C truncating division agree. -/
def align_up (x n : ℤ) : ℤ :=
  (x + n - 1) / n * n

/-- Modelled from the spec (section 4.1): one per-input-dimension entry of a
    BoundsMap (interpreter/interval.h is not under src/).  `d_out` names the
    output dimension the entry consumes.  The integer-extent overload of
    `constant(d, e)` used by Conv2DOp stands for the interval [0, e-1] and is
    written out as such at the use sites. -/
inductive DimMap
  | elementwiseDim (d_out : ℕ) (offset : ℤ)
  | constantDim (bounds : Interval)
  | downsampleDim (d_out : ℕ) (factor : ℤ) (support : Interval)
  | upsampleDim (d_out : ℕ) (factor : ℤ)
  | alignedDim (inner : DimMap) (alignment : ℤ)
deriving DecidableEq

/-- Modelled from the spec (section 4.1): outward widening of an interval to
    multiples of n, for the `align` modifier of a BoundsMap. -/
def alignInterval (i : Interval) (n : ℤ) : Interval :=
  ⟨i.min / n * n, (i.max + n) / n * n - 1⟩

/-- Modelled from the spec (section 4.1): evaluating one BoundsMap entry on a
    requested output region (one Interval per output dimension) yields the
    required input interval for that input dimension: elementwise shifts by the
    offset, constant ignores the request, downsample scales by the factor and
    expands by the support, upsample divides by the factor, align widens. -/
def evalDimMap : DimMap → List Interval → Interval
  | .elementwiseDim d off, R =>
      ⟨(R.getD d ⟨0, 0⟩).min + off, (R.getD d ⟨0, 0⟩).max + off⟩
  | .constantDim b, _ => b
  | .downsampleDim d f s, R =>
      ⟨(R.getD d ⟨0, 0⟩).min * f + s.min, (R.getD d ⟨0, 0⟩).max * f + s.max⟩
  | .upsampleDim d f, R =>
      ⟨(R.getD d ⟨0, 0⟩).min / f, (R.getD d ⟨0, 0⟩).max / f⟩
  | .alignedDim m n, R => alignInterval (evalDimMap m R) n

/-- BoundsMap.elementwise(rank): the identity transform of the given rank. -/
def BoundsMap.elementwiseOfRank (rank : ℕ) : List DimMap :=
  (List.range rank).map (fun d => .elementwiseDim d 0)

/-- The method `ConcatenationOp::map_bounds` of ops.cpp (lines 356-367) for
    output index 0: the elementwise transform of the common rank, with the
    entry at the concatenation axis shifted by the sum of the axis extents of
    the earlier inputs.  `inputAxisExtents` lists `input(i)->extent(axis_)`. -/
def ConcatenationOp.map_bounds (axis : ℕ) (inputAxisExtents : List ℤ) (input_idx : ℕ)
    (rank : ℕ) : List DimMap :=
  (List.range rank).map (fun d =>
    if d = axis then .elementwiseDim d ((inputAxisExtents.take input_idx).sum)
    else .elementwiseDim d 0)

/-- The method `Conv2DOp::map_bounds` of ops.cpp (lines 395-431) for input
    index 0: aligned-up constant full extent on the channel dimension,
    downsample by stride with dilation-sized support on the two spatial
    dimensions, elementwise on the batch dimension. -/
def Conv2DOp.map_bounds_input0 (inputExtent0 stride1 stride2 dilation1 dilation2
    filterExtent1 filterExtent2 unroll_reduction : ℤ) : List DimMap :=
  [ .constantDim ⟨0, align_up inputExtent0 unroll_reduction - 1⟩,
    .downsampleDim 1 stride1 ⟨0, dilation1 * (filterExtent1 - 1)⟩,
    .downsampleDim 2 stride2 ⟨0, dilation2 * (filterExtent2 - 1)⟩,
    .elementwiseDim 3 0 ]

/-- The method `DepthwiseConv2DOp::map_bounds` of ops.cpp (lines 538-567) for
    input index 0: upsample the channel dimension by the depth multiplier
    (aligned to the SIMD width when the depth multiplier is 1), downsample the
    spatial dimensions, elementwise on the batch dimension. -/
def DepthwiseConv2DOp.map_bounds_input0 (depth_multiplier stride1 stride2 dilation1 dilation2
    filterExtent1 filterExtent2 simd_alignment : ℤ) : List DimMap :=
  [ (if depth_multiplier = 1 then
       DimMap.alignedDim (.upsampleDim 0 depth_multiplier) simd_alignment
     else .upsampleDim 0 depth_multiplier),
    .downsampleDim 1 stride1 ⟨0, dilation1 * (filterExtent1 - 1)⟩,
    .downsampleDim 2 stride2 ⟨0, dilation2 * (filterExtent2 - 1)⟩,
    .elementwiseDim 3 0 ]

/-- The method `PoolOp::map_bounds` of ops.cpp (lines 769-776) for input index
    0: elementwise on channel and batch, downsample by stride with
    filter-size-minus-one support on the two spatial dimensions. -/
def PoolOp.map_bounds_input0 (stride1 stride2 filterSize1 filterSize2 : ℤ) : List DimMap :=
  [ .elementwiseDim 0 0,
    .downsampleDim 1 stride1 ⟨0, filterSize1 - 1⟩,
    .downsampleDim 2 stride2 ⟨0, filterSize2 - 1⟩,
    .elementwiseDim 3 0 ]

/-- Halide `Buffer::translate(d, delta)`: shift the min of dimension d. -/
def translate (dims : List HalideDim) (d : ℕ) (delta : ℤ) : List HalideDim :=
  dims.set d { dimOf dims d with min := (dimOf dims d).min + delta }

/-- The function `crop_to_union` of ops.cpp (lines 129-138): crop both views,
    dimension by dimension, to the intersection of their index ranges. -/
def crop_to_union (a b : List HalideDim) : List HalideDim × List HalideDim :=
  (List.zipWith (fun da db =>
      { da with min := max da.min db.min,
                extent := min da.maxIdx db.maxIdx - max da.min db.min + 1 }) a b,
   List.zipWith (fun da db =>
      { db with min := max da.min db.min,
                extent := min da.maxIdx db.maxIdx - max da.min db.min + 1 }) a b)

/-- Loop of `ConcatenationOp::execute` (ops.cpp lines 369-383), carrying the
    running offset `concatenated_i`: each input is asserted to have min 0 along
    the axis (a failed assert is `none`), translated along the axis by the
    running offset, and requantized into the crop of the output that matches
    it; the offset then grows by the extent of that input along the axis.  Each
    produced pair is (cropped output view, translated-and-cropped input view). -/
def concat_go (output : List HalideDim) (axis : ℕ) :
    List (List HalideDim) → ℤ → Option (List (List HalideDim × List HalideDim))
  | [], _ => some []
  | inp :: rest, concatenated_i =>
    if (dimOf inp axis).min = 0 then
      match concat_go output axis rest (concatenated_i + (dimOf inp axis).extent) with
      | some tail => some (crop_to_union output (translate inp axis concatenated_i) :: tail)
      | none => none
    else none

/-- The method `ConcatenationOp::execute` of ops.cpp (lines 369-383). -/
def ConcatenationOp.execute (output : List HalideDim) (axis : ℕ)
    (inputs : List (List HalideDim)) : Option (List (List HalideDim × List HalideDim)) :=
  concat_go output axis inputs 0

/-- Assertion-free companion of `concat_go`: what the loop produces when every
    assert passes. -/
def concat_spec (output : List HalideDim) (axis : ℕ) :
    List (List HalideDim) → ℤ → List (List HalideDim × List HalideDim)
  | [], _ => []
  | inp :: rest, c =>
    crop_to_union output (translate inp axis c) ::
      concat_spec output axis rest (c + (dimOf inp axis).extent)

/-- Two-dimensional buffer exercising the fusability condition: dimension 0 has
    min 0 and dimension 1 has stride equal to extent times stride of dimension
    0, but the strides are negative. -/
def c7buf : List HalideDim := [⟨0, 2, -1⟩, ⟨5, 3, -2⟩]

/-- Concrete requested output region used to instantiate the bounds-coverage
    theorem: channel interval [0, 3], spatial intervals [0, 4], batch [0, 0]. -/
def c1R : List Interval := [⟨0, 3⟩, ⟨0, 4⟩, ⟨0, 4⟩, ⟨0, 0⟩]

/-! Helper lemmas about the rational models of `std::round` and `std::frexp`. -/

lemma roundQ_nonneg_eq (x : ℚ) (hx : 0 ≤ x) : roundQ x = ⌊x + 1/2⌋ := by
  unfold roundQ
  rw [if_neg (not_lt.mpr hx)]

lemma frexpQ_eq (q : ℚ) (e : ℤ) (hq1 : 1/2 ≤ q) (hq2 : q < 1) :
    frexpQ (q * 2 ^ e) = (q, e) := by
  have hq0 : (0:ℚ) < q := lt_of_lt_of_le (by norm_num) hq1
  have h2e : (0:ℚ) < 2 ^ e := by positivity
  have hm : (0:ℚ) < q * 2 ^ e := mul_pos hq0 h2e
  have hb : (1:ℕ) < 2 := by norm_num
  have hlog : Int.log 2 (q * 2 ^ e) = e - 1 := by
    have h1 : ((2:ℕ):ℚ) ^ (e - 1) ≤ q * 2 ^ e := by
      push_cast
      calc (2:ℚ) ^ (e - 1) = (1/2) * 2 ^ e := by
            rw [zpow_sub₀ (by norm_num : (2:ℚ) ≠ 0)]; ring
        _ ≤ q * 2 ^ e := mul_le_mul_of_nonneg_right hq1 (le_of_lt h2e)
    have h2 : q * 2 ^ e < ((2:ℕ):ℚ) ^ e := by
      push_cast
      calc q * 2 ^ e < 1 * 2 ^ e := mul_lt_mul_of_pos_right hq2 h2e
        _ = 2 ^ e := one_mul _
    have hle := (Int.zpow_le_iff_le_log hb hm).mp h1
    have hlt := (Int.lt_zpow_iff_log_lt hb hm).mp h2
    omega
  unfold frexpQ
  rw [if_neg (ne_of_gt hm), abs_of_pos hm, hlog]
  have he : e - 1 + 1 = e := by ring
  rw [he]
  have hcancel : q * 2 ^ e / 2 ^ e = q := by
    field_simp
  rw [hcancel]

lemma frexpQ_pos (m : ℚ) (hm : 0 < m) :
    m = (frexpQ m).1 * 2 ^ (frexpQ m).2 ∧ 1/2 ≤ (frexpQ m).1 ∧ (frexpQ m).1 < 1 := by
  have hb : (1:ℕ) < 2 := by norm_num
  unfold frexpQ
  rw [if_neg (ne_of_gt hm), abs_of_pos hm]
  simp only
  have h2 : (0:ℚ) < 2 ^ (Int.log 2 m + 1) := by positivity
  refine ⟨by field_simp, ?_, ?_⟩
  · rw [le_div_iff₀ h2]
    have hself := Int.zpow_log_le_self hb hm
    push_cast at hself
    calc (1/2 : ℚ) * 2 ^ (Int.log 2 m + 1) = 2 ^ Int.log 2 m := by
          rw [zpow_add_one₀ (by norm_num : (2:ℚ) ≠ 0)]; ring
      _ ≤ m := hself
  · rw [div_lt_one h2]
    have hsucc := Int.lt_zpow_succ_log_self hb m
    push_cast at hsucc
    exact hsucc

lemma frexpQ_snd (m : ℚ) (hm : 0 < m) : (frexpQ m).2 = Int.log 2 m + 1 := by
  unfold frexpQ
  rw [if_neg (ne_of_gt hm), abs_of_pos hm]

/-! Concrete evaluations of `get_quantized_mul_and_shift`. -/

lemma gqmas_half : get_quantized_mul_and_shift (1/2) 32 = ⟨2 ^ 30, 0⟩ := by
  have hfr : frexpQ ((1/2 : ℚ)) = (1/2, 0) := by
    simpa using frexpQ_eq (1/2) 0 (le_refl _) (by norm_num)
  unfold get_quantized_mul_and_shift
  rw [if_neg (by norm_num : ¬((1/2 : ℚ) = 0)), hfr]
  unfold gqmas_core
  have hr : roundQ ((1/2 : ℚ) * 2 ^ (32 - 1)) = 2 ^ 30 := by
    rw [roundQ_nonneg_eq _ (by norm_num)]
    have hx : ((1/2 : ℚ) * 2 ^ (32 - 1) + 1/2) = 2 ^ 30 + 1/2 := by norm_num
    rw [hx]
    rw [Int.floor_eq_iff]
    constructor <;> norm_num
  rw [hr]
  norm_num

lemma gqmas_near_one :
    get_quantized_mul_and_shift (8589934591/8589934592) 32 = ⟨2 ^ 30, 1⟩ := by
  have hfr : frexpQ ((8589934591/8589934592 : ℚ)) = (8589934591/8589934592, 0) := by
    simpa using frexpQ_eq (8589934591/8589934592) 0 (by norm_num) (by norm_num)
  unfold get_quantized_mul_and_shift
  rw [if_neg (by norm_num : ¬((8589934591/8589934592 : ℚ) = 0)), hfr]
  unfold gqmas_core
  have hr : roundQ ((8589934591/8589934592 : ℚ) * 2 ^ (32 - 1)) = 2 ^ 31 := by
    rw [roundQ_nonneg_eq _ (by norm_num)]
    have hx : ((8589934591/8589934592 : ℚ) * 2 ^ (32 - 1) + 1/2) = 8589934593/4 := by
      norm_num
    rw [hx]
    rw [Int.floor_eq_iff]
    constructor <;> norm_num
  rw [hr]
  norm_num

/-- Shift non-positivity of the mantissa-rounding pipeline for multipliers in
    [0, 1 - 2 ^ (-32)): the frexp exponent is at most 0, and the overflow
    branch (which increments the shift) can only reach a positive shift when
    the multiplier is within half an ulp of 1. -/
lemma gqmas_shift_nonpos (m : ℚ) (h0 : 0 ≤ m) (h1 : m < 1 - 1/2^32) :
    (get_quantized_mul_and_shift m 32).shift ≤ 0 := by
  unfold get_quantized_mul_and_shift
  by_cases hm : m = 0
  · rw [if_pos hm]
  · rw [if_neg hm]
    have hmpos : 0 < m := lt_of_le_of_ne h0 (Ne.symm hm)
    obtain ⟨hrepr, hq1, hq2⟩ := frexpQ_pos m hmpos
    have hmlt1 : m < 1 := lt_trans h1 (by norm_num)
    have he : (frexpQ m).2 ≤ 0 := by
      rw [frexpQ_snd m hmpos]
      have hb : (1:ℕ) < 2 := by norm_num
      have hm1 : m < ((2:ℕ):ℚ) ^ (0:ℤ) := by push_cast; simpa using hmlt1
      have := (Int.lt_zpow_iff_log_lt hb hmpos).mp hm1
      omega
    unfold gqmas_core
    by_cases hover : roundQ ((frexpQ m).1 * 2 ^ (32 - 1)) = 2 ^ (32 - 1)
    · rw [if_pos hover]
      rcases eq_or_lt_of_le he with he0 | helt
      · -- exponent 0 means the mantissa is m itself; overflowing the rounding
        -- then forces m within half an ulp of 1, against the hypothesis
        exfalso
        have hqm : (frexpQ m).1 = m := by
          have hx := hrepr
          rw [he0] at hx
          simpa using hx.symm
        rw [hqm, roundQ_nonneg_eq _ (by positivity)] at hover
        have hfl := Int.floor_le (m * 2 ^ (32 - 1) + 1/2 : ℚ)
        rw [hover] at hfl
        push_cast at hfl
        nlinarith [hfl, h1]
      · split
        · norm_num
        · simp only
          omega
    · rw [if_neg hover]
      split
      · norm_num
      · simp only
        omega

/-! Helper lemmas about lists, alignment and interval containment. -/

lemma getD_eraseIdx_lt {α : Type _} (l : List α) (i j : ℕ) (h : i < j) (d : α) :
    (l.eraseIdx j).getD i d = l.getD i d := by
  induction l generalizing i j with
  | nil => simp [List.eraseIdx]
  | cons a t ih =>
    cases j with
    | zero => omega
    | succ j2 =>
      cases i with
      | zero => simp [List.eraseIdx]
      | succ i2 =>
        simp only [List.eraseIdx, List.getD_cons_succ]
        exact ih i2 j2 (by omega)

lemma getD_set_self {α : Type _} (l : List α) (i : ℕ) (x d : α) (h : i < l.length) :
    (l.set i x).getD i d = x := by
  induction l generalizing i with
  | nil => simp at h
  | cons a t ih =>
    cases i with
    | zero => simp
    | succ i2 =>
      simp only [List.set_cons_succ, List.getD_cons_succ]
      exact ih i2 (by simpa using h)

lemma le_align_up (x n : ℤ) (hn : 0 < n) : x ≤ align_up x n := by
  unfold align_up
  have h := Int.lt_ediv_add_one_mul_self (x + n - 1) hn
  have h2 : ((x + n - 1) / n + 1) * n = (x + n - 1) / n * n + n := by ring
  rw [h2] at h
  have h3 : x - 1 < (x + n - 1) / n * n := by linarith
  have h4 := Int.add_one_le_iff.mpr h3
  linarith

lemma alignInterval_contains (i : Interval) (n x : ℤ) (hn : 0 < n)
    (hx : i.contains x) : (alignInterval i n).contains x := by
  obtain ⟨hl, hr⟩ := hx
  unfold alignInterval Interval.contains
  constructor
  · calc i.min / n * n ≤ i.min := Int.ediv_mul_le i.min (ne_of_gt hn)
      _ ≤ x := hl
  · have h := Int.lt_ediv_add_one_mul_self (i.max + n) hn
    have h2 : ((i.max + n) / n + 1) * n = (i.max + n) / n * n + n := by ring
    rw [h2] at h
    have h3 : i.max < (i.max + n) / n * n := by linarith
    have h4 := Int.add_one_le_iff.mpr h3
    simp only
    linarith

lemma downsample_contains (omin omax o f tap smax : ℤ) (hf : 0 ≤ f)
    (h1 : omin ≤ o) (h2 : o ≤ omax) (h3 : 0 ≤ tap) (h4 : tap ≤ smax) :
    omin * f + 0 ≤ o * f + tap ∧ o * f + tap ≤ omax * f + smax := by
  constructor
  · have := mul_le_mul_of_nonneg_right h1 hf
    linarith
  · have := mul_le_mul_of_nonneg_right h2 hf
    linarith

lemma concat_map_bounds_getD (axis rank : ℕ) (extents : List ℤ) (idx d : ℕ)
    (hd : d < rank) :
    (ConcatenationOp.map_bounds axis extents idx rank).getD d (.elementwiseDim 0 0) =
      (if d = axis then DimMap.elementwiseDim d ((extents.take idx).sum)
       else .elementwiseDim d 0) := by
  unfold ConcatenationOp.map_bounds
  rw [List.getD_eq_getElem _ _ (by simpa using hd)]
  simp

lemma concat_go_eq (output : List HalideDim) (axis : ℕ)
    (inputs : List (List HalideDim)) :
    ∀ c : ℤ, concat_go output axis inputs c =
      if ∀ inp ∈ inputs, (dimOf inp axis).min = 0
      then some (concat_spec output axis inputs c) else none := by
  induction inputs with
  | nil => intro c; simp [concat_go, concat_spec]
  | cons inp rest ih =>
    intro c
    by_cases h : (dimOf inp axis).min = 0
    · simp only [concat_go, if_pos h]
      rw [ih]
      by_cases hrest : ∀ inp2 ∈ rest, (dimOf inp2 axis).min = 0
      · have hall : ∀ inp2 ∈ inp :: rest, (dimOf inp2 axis).min = 0 :=
          List.forall_mem_cons.mpr ⟨h, hrest⟩
        rw [if_pos hrest, if_pos hall]
        simp [concat_spec]
      · have hnall : ¬ ∀ inp2 ∈ inp :: rest, (dimOf inp2 axis).min = 0 := fun hall =>
          hrest (List.forall_mem_cons.mp hall).2
        rw [if_neg hrest, if_neg hnall]
    · simp only [concat_go, if_neg h]
      rw [if_neg]
      intro hall
      exact h (hall inp (by simp))

lemma concat_spec_getD (output : List HalideDim) (axis : ℕ)
    (inputs : List (List HalideDim)) :
    ∀ (c : ℤ) (i : ℕ), i < inputs.length →
      (concat_spec output axis inputs c).getD i ([], []) =
        crop_to_union output (translate (inputs.getD i []) axis
          (c + ((inputs.take i).map (fun inp => (dimOf inp axis).extent)).sum)) := by
  induction inputs with
  | nil => intro c i hi; simp at hi
  | cons inp rest ih =>
    intro c i hi
    cases i with
    | zero => simp [concat_spec]
    | succ i2 =>
      simp only [concat_spec, List.getD_cons_succ, List.take_succ_cons, List.map_cons,
        List.sum_cons]
      rw [ih (c + (dimOf inp axis).extent) i2 (by simpa using hi)]
      congr 2
      ring

/-! Claim theorems. -/

/-- C2, counterexample: invoking ReductionOp::execute with a dtype combination
    outside the supported set (here int32 input and output) is not a fatal
    error - the function silently falls through and does nothing, because its
    type dispatch has no else branch; the claim says every operator, including
    ReductionOp, aborts loudly. -/
theorem C2_counterexample :
    ReductionOp.execute_outcome .i32 .i32 = .silentNoop ∧
    ReductionOp.execute_outcome .i32 .i32 ≠ .fatal := by
  decide

/-- C2, amended: a dtype combination outside the enumerated supported set is a
    fatal error for BinaryOp::execute, but ReductionOp::execute and
    UnaryOp::execute silently do nothing (no abort, no write) for unsupported
    dtype combinations. -/
theorem C2_amended (t1 t2 tout : HalideElemType) (uop : UnaryOperator) :
    (BinaryOp.execute_outcome t1 t2 tout = .fatal
       ↔ ¬(t1 = .u8 ∧ t2 = .u8 ∧ tout = .u8)) ∧
    (ReductionOp.execute_outcome t1 tout = .silentNoop ↔ ¬(t1 = .u8 ∧ tout = .u8)) ∧
    (UnaryOp.execute_outcome t1 tout uop = .silentNoop ↔ ¬(t1 = .u8 ∧ tout = .u8)) := by
  cases t1 <;> cases t2 <;> cases tout <;> cases uop <;> decide

/-- C3: requantize is a no-op byte copy iff the source and destination
    QuantizationInfo are identical and the views are not aliased; with
    identical QuantizationInfo and aliased views it returns immediately,
    leaving the output bytes untouched; otherwise it rescales through the add
    path. -/
theorem C3_requantize (inq outq : QuantizationInfo) (ib ie ob oe : ℤ)
    (inBytes outBytes : List ℤ) :
    (requantize_path inq outq ib ie ob oe = .copyBytes
       ↔ inq = outq ∧ is_alias ib ie ob oe = false) ∧
    (requantize_path inq outq ib ie ob oe = .skipAliased
       ↔ inq = outq ∧ is_alias ib ie ob oe = true) ∧
    (requantize_path inq outq ib ie ob oe = .addRescale ↔ inq ≠ outq) ∧
    (requantize_contents inq outq ib ie ob oe inBytes outBytes =
       if inq = outq then some (if is_alias ib ie ob oe then outBytes else inBytes)
       else none) := by
  unfold requantize_contents requantize_path
  by_cases hq : inq = outq
  · by_cases ha : is_alias ib ie ob oe = true
    · simp [hq, ha]
    · rw [Bool.not_eq_true] at ha
      simp [hq, ha]
  · simp [hq]

/-- C4, counterexample: get_quantized_mul_and_shift(0.5) at 32-bit precision
    returns shift = 0 (with multiplier 2 ^ 30), not the shift = -1 the claim
    states: frexp(0.5) = (0.5, 0), and rounding 0.5 * 2 ^ 31 does not
    overflow, so the exponent stays 0. -/
theorem C4_counterexample :
    (get_quantized_mul_and_shift (1/2) 32).multiplier = 2 ^ 30 ∧
    (get_quantized_mul_and_shift (1/2) 32).shift = 0 ∧
    (get_quantized_mul_and_shift (1/2) 32).shift ≠ -1 := by
  rw [gqmas_half]
  refine ⟨rfl, rfl, by decide⟩

/-- C4, amended: get_quantized_mul_and_shift(0.5) at 32-bit precision yields
    multiplier = 2 ^ 30 and shift = 0, representing 0.5 to full integer
    precision under the normalization m = (multiplier / 2 ^ 31) * 2 ^ shift of
    the frexp decomposition. -/
theorem C4_amended :
    get_quantized_mul_and_shift (1/2) 32 = ⟨2 ^ 30, 0⟩ ∧
    ((get_quantized_mul_and_shift (1/2) 32).multiplier : ℚ) / 2 ^ 31 *
        2 ^ (get_quantized_mul_and_shift (1/2) 32).shift = 1/2 := by
  refine ⟨gqmas_half, ?_⟩
  rw [gqmas_half]
  norm_num

/-- C5, counterexample: the multiplier m = 1 - 2 ^ (-33) satisfies the asserted
    precondition 0 ≤ m < 1, yet get_quantized_mul_and_shift_smaller_than_one
    produces shift = 1: rounding the mantissa at 32 bits overflows to 2 ^ 31
    and the re-normalization increments the shift to +1, so the internal
    assertion shift ≤ 0 fires; the claim says it never fires on [0, 1). -/
theorem C5_counterexample :
    (0:ℚ) ≤ 8589934591/8589934592 ∧ (8589934591/8589934592 : ℚ) < 1 ∧
    (get_quantized_mul_and_shift_smaller_than_one (8589934591/8589934592) 32).shift = 1 ∧
    ¬ (get_quantized_mul_and_shift_smaller_than_one (8589934591/8589934592) 32).shift ≤ 0 := by
  refine ⟨by norm_num, by norm_num, ?_, ?_⟩ <;>
    simp [get_quantized_mul_and_shift_smaller_than_one, gqmas_near_one]

/-- C5, amended: for every multiplier m with 0 ≤ m < 1 - 2 ^ (-32) the shift
    returned by get_quantized_mul_and_shift_smaller_than_one at the default 32
    bits is non-positive (the assertion only fires for m within half an ulp of
    1, that is m in [1 - 2 ^ (-32), 1)). -/
theorem C5_amended (m : ℚ) (h0 : 0 ≤ m) (h1 : m < 1 - 1/2^32) :
    (get_quantized_mul_and_shift_smaller_than_one m 32).shift ≤ 0 := by
  unfold get_quantized_mul_and_shift_smaller_than_one
  exact gqmas_shift_nonpos m h0 h1

/-- C5, witness: the amended theorem applied at m = 1/2. -/
theorem C5_witness :
    (get_quantized_mul_and_shift_smaller_than_one (1/2) 32).shift ≤ 0 :=
  C5_amended (1/2) (by norm_num) (by norm_num)

/-- C6: for a zero point z in [0, 255] and a positive scale s, the ReLU6 clamp
    interval is [z, z + round(6/s)] with both ends clamped into [0, 255], that
    is get_quantized_min_max returns min = max(z, 0) and
    max = min(z + round(6/s), 255). -/
theorem C6_relu6_range (z : ℤ) (s : ℚ) (h0 : 0 ≤ z) (h255 : z ≤ 255) (hs : 0 < s) :
    get_quantized_min_max .Relu6 z s = ⟨max z 0, min (z + roundQ (6 / s)) 255⟩ := rfl

/-- C6, witness: the theorem applied at z = 128, s = 1. -/
theorem C6_witness :
    get_quantized_min_max .Relu6 128 1 = ⟨max 128 0, min (128 + roundQ (6 / 1)) 255⟩ :=
  C6_relu6_range 128 1 (by norm_num) (by norm_num) (by norm_num)

/-- C7, counterexample: a buffer whose dimension 0 has min 0 and whose
    dimension 1 stride equals extent times stride of dimension 0 - the claimed
    iff condition - yet can_fuse returns false, because the code additionally
    requires the stride of dimension 1 to be positive. -/
theorem C7_counterexample :
    (dimOf c7buf 0).min = 0 ∧
    (dimOf c7buf 1).stride = (dimOf c7buf 0).extent * (dimOf c7buf 0).stride ∧
    can_fuse c7buf 0 1 = false := by
  decide

/-- C7, amended: can_fuse returns true iff both dimensions are in range, d0 has
    min 0, d1 has positive stride, and the stride of d1 equals the extent of d0
    times the stride of d0; fusing adjacent dimensions multiplies the two
    extents into the lower dimension and removes the other, reducing the rank
    by one. -/
theorem C7_amended :
    (∀ (dims : List HalideDim) (d0 d1 : ℕ),
       can_fuse dims d0 d1 = true ↔
         d0 < dims.length ∧ d1 < dims.length ∧ (dimOf dims d0).min = 0 ∧
         0 < (dimOf dims d1).stride ∧
         (dimOf dims d1).stride = (dimOf dims d0).extent * (dimOf dims d0).stride) ∧
    (∀ (dims : List HalideDim) (d0 : ℕ), d0 + 1 < dims.length →
       (fuse dims d0 (d0 + 1)).length + 1 = dims.length ∧
       (dimOf (fuse dims d0 (d0 + 1)) d0).extent =
         (dimOf dims d0).extent * (dimOf dims (d0 + 1)).extent) := by
  constructor
  · intro dims d0 d1
    simp [can_fuse, Bool.and_eq_true, decide_eq_true_eq, and_assoc]
  · intro dims d0 h
    constructor
    · unfold fuse
      rw [List.length_eraseIdx]
      simp only [List.length_set]
      rw [if_pos (by omega)]
      omega
    · unfold fuse dimOf
      rw [getD_eraseIdx_lt _ d0 (d0 + 1) (by omega)]
      rw [getD_set_self _ d0 _ _ (by omega)]

/-- C8: on a dimension where the two operand extents are equal and different
    from 1 (here both 2, the shape of an ordinary same-shape binary add),
    broadcast_shapes hits the LOG(FATAL) branch, because the loop has no case
    for equal extents; the second conjunct shows the intended widening does
    happen when one extent is 1. -/
theorem C8_broadcast_equal_extents_fatal :
    broadcast_shapes [⟨0, 2, 1⟩] [⟨0, 2, 1⟩] 1 = none ∧
    broadcast_shapes [⟨0, 1, 1⟩] [⟨0, 5, 1⟩] 1 = some ([⟨0, 5, 0⟩], [⟨0, 5, 1⟩]) := by
  decide

/-- C9: ConcatenationOp::map_bounds for input i is the identity (elementwise)
    transform of the common rank except that the interval along the
    concatenation axis is shifted by the sum of the axis extents of inputs 0
    through i-1; in particular the transform for input 0 is the plain
    elementwise map. -/
theorem C9_concat_map_bounds (axis rank : ℕ) (extents : List ℤ) (idx d : ℕ)
    (R : List Interval) (hd : d < rank) :
    ConcatenationOp.map_bounds axis extents 0 rank = BoundsMap.elementwiseOfRank rank ∧
    evalDimMap ((ConcatenationOp.map_bounds axis extents idx rank).getD d
        (.elementwiseDim 0 0)) R =
      ⟨(R.getD d ⟨0, 0⟩).min + (if d = axis then (extents.take idx).sum else 0),
       (R.getD d ⟨0, 0⟩).max + (if d = axis then (extents.take idx).sum else 0)⟩ := by
  constructor
  · unfold ConcatenationOp.map_bounds BoundsMap.elementwiseOfRank
    apply List.map_congr_left
    intro a _
    split_ifs with ha
    · simp
    · rfl
  · rw [concat_map_bounds_getD axis rank extents idx d hd]
    split_ifs with hax
    · simp [evalDimMap, hax]
    · simp [evalDimMap]

/-- C9, witness: the theorem applied at axis 1, rank 2, input index 2 of three
    inputs with axis extents 3, 4, 5: the transform shifts the axis interval by
    3 + 4 = 7 and leaves dimension 0 alone. -/
theorem C9_witness :
    ConcatenationOp.map_bounds 1 [3, 4, 5] 0 2 = BoundsMap.elementwiseOfRank 2 ∧
    evalDimMap ((ConcatenationOp.map_bounds 1 [3, 4, 5] 2 2).getD 1
        (.elementwiseDim 0 0)) [⟨0, 9⟩, ⟨2, 6⟩] =
      ⟨(([⟨0, 9⟩, ⟨2, 6⟩] : List Interval).getD 1 ⟨0, 0⟩).min +
          (if 1 = 1 then (([3, 4, 5] : List ℤ).take 2).sum else 0),
       (([⟨0, 9⟩, ⟨2, 6⟩] : List Interval).getD 1 ⟨0, 0⟩).max +
          (if 1 = 1 then (([3, 4, 5] : List ℤ).take 2).sum else 0)⟩ :=
  C9_concat_map_bounds 1 2 [3, 4, 5] 2 1 [⟨0, 9⟩, ⟨2, 6⟩] (by decide)

/-- C10: ConcatenationOp::execute asserts that every input has min 0 along the
    concatenation axis (the first two equivalences: the loop completes exactly
    when the precondition holds and aborts exactly when it does not), and under
    that precondition input i is translated along the axis by the running sum
    of the axis extents of the earlier inputs and requantized into the crop of
    the output that matches it. -/
theorem C10_concat_execute (output : List HalideDim) (axis : ℕ)
    (inputs : List (List HalideDim)) (i : ℕ) (hi : i < inputs.length) :
    (ConcatenationOp.execute output axis inputs = some (concat_spec output axis inputs 0)
       ↔ ∀ inp ∈ inputs, (dimOf inp axis).min = 0) ∧
    (ConcatenationOp.execute output axis inputs = none
       ↔ ¬ ∀ inp ∈ inputs, (dimOf inp axis).min = 0) ∧
    (concat_spec output axis inputs 0).getD i ([], []) =
      crop_to_union output (translate (inputs.getD i []) axis
        (((inputs.take i).map (fun inp => (dimOf inp axis).extent)).sum)) := by
  have hgo := concat_go_eq output axis inputs 0
  unfold ConcatenationOp.execute
  refine ⟨?_, ?_, ?_⟩
  · rw [hgo]
    split_ifs with hpre
    · exact iff_of_true rfl hpre
    · exact iff_of_false (by simp) hpre
  · rw [hgo]
    split_ifs with hpre
    · exact iff_of_false (by simp) (not_not_intro hpre)
    · exact iff_of_true rfl hpre
  · have hs := concat_spec_getD output axis inputs 0 i hi
    simpa using hs

/-- C10, witness: the theorem applied to two rank-1 inputs of extents 2 and 3
    concatenated along axis 0 into an output of extent 5, at input index 1. -/
theorem C10_witness :
    (ConcatenationOp.execute [⟨0, 5, 1⟩] 0 [[⟨0, 2, 1⟩], [⟨0, 3, 1⟩]]
       = some (concat_spec [⟨0, 5, 1⟩] 0 [[⟨0, 2, 1⟩], [⟨0, 3, 1⟩]] 0)
      ↔ ∀ inp ∈ [[⟨0, 2, 1⟩], [⟨0, 3, 1⟩]], (dimOf inp 0).min = 0) ∧
    (ConcatenationOp.execute [⟨0, 5, 1⟩] 0 [[⟨0, 2, 1⟩], [⟨0, 3, 1⟩]] = none
      ↔ ¬ ∀ inp ∈ [[⟨0, 2, 1⟩], [⟨0, 3, 1⟩]], (dimOf inp 0).min = 0) ∧
    (concat_spec [⟨0, 5, 1⟩] 0 [[⟨0, 2, 1⟩], [⟨0, 3, 1⟩]] 0).getD 1 ([], []) =
      crop_to_union [⟨0, 5, 1⟩] (translate (([[⟨0, 2, 1⟩], [⟨0, 3, 1⟩]] :
          List (List HalideDim)).getD 1 []) 0
        ((([[⟨0, 2, 1⟩], [⟨0, 3, 1⟩]] : List (List HalideDim)).take 1).map
            (fun inp => (dimOf inp 0).extent)).sum) :=
  C10_concat_execute [⟨0, 5, 1⟩] 0 [[⟨0, 2, 1⟩], [⟨0, 3, 1⟩]] 1 (by decide)

/-- C1: for the operators whose map_bounds is given in ops.cpp (Conv2D,
    DepthwiseConv2D, Pool, input 0), every coordinate the kernel reads while
    producing any point of the requested output region lies inside the input
    region obtained by composing map_bounds with that output region - so
    feeding the kernel exactly that input region suffices to reproduce the
    output region (no under-fetch).  R is the requested output region; (oc, x,
    y, b) ranges over its points; kx, ky range over the filter taps, t1, t2
    over the pooling window, and c over the input channels of the convolution
    reduction.  The conv kernel reads input point (c, x * stride + dilation *
    kx, y * stride + dilation * ky, b), the depthwise kernel reads channel
    oc / depth_multiplier, and the pool kernel reads (oc, x * stride + t1,
    y * stride + t2, b); all modelled from the spec since the generated kernels
    are not under src/. -/
theorem C1_map_bounds_no_under_fetch
    (R : List Interval)
    (inExt0 s1 s2 d1 d2 fe1 fe2 u dm simd fs1 fs2 c x y b kx ky t1 t2 oc : ℤ)
    (hs1 : 0 ≤ s1) (hs2 : 0 ≤ s2) (hd1 : 0 ≤ d1) (hd2 : 0 ≤ d2)
    (hu : 0 < u) (hdm : 0 < dm) (hsimd : 0 < simd)
    (hc : 0 ≤ c ∧ c < inExt0)
    (hx : (R.getD 1 ⟨0, 0⟩).contains x) (hy : (R.getD 2 ⟨0, 0⟩).contains y)
    (hb : (R.getD 3 ⟨0, 0⟩).contains b) (hoc : (R.getD 0 ⟨0, 0⟩).contains oc)
    (hkx : 0 ≤ kx ∧ kx ≤ fe1 - 1) (hky : 0 ≤ ky ∧ ky ≤ fe2 - 1)
    (ht1 : 0 ≤ t1 ∧ t1 ≤ fs1 - 1) (ht2 : 0 ≤ t2 ∧ t2 ≤ fs2 - 1) :
    ((evalDimMap ((Conv2DOp.map_bounds_input0 inExt0 s1 s2 d1 d2 fe1 fe2 u).getD 0
        (.elementwiseDim 0 0)) R).contains c ∧
     (evalDimMap ((Conv2DOp.map_bounds_input0 inExt0 s1 s2 d1 d2 fe1 fe2 u).getD 1
        (.elementwiseDim 0 0)) R).contains (x * s1 + d1 * kx) ∧
     (evalDimMap ((Conv2DOp.map_bounds_input0 inExt0 s1 s2 d1 d2 fe1 fe2 u).getD 2
        (.elementwiseDim 0 0)) R).contains (y * s2 + d2 * ky) ∧
     (evalDimMap ((Conv2DOp.map_bounds_input0 inExt0 s1 s2 d1 d2 fe1 fe2 u).getD 3
        (.elementwiseDim 0 0)) R).contains b) ∧
    ((evalDimMap ((DepthwiseConv2DOp.map_bounds_input0 dm s1 s2 d1 d2 fe1 fe2 simd).getD 0
        (.elementwiseDim 0 0)) R).contains (oc / dm) ∧
     (evalDimMap ((DepthwiseConv2DOp.map_bounds_input0 dm s1 s2 d1 d2 fe1 fe2 simd).getD 1
        (.elementwiseDim 0 0)) R).contains (x * s1 + d1 * kx) ∧
     (evalDimMap ((DepthwiseConv2DOp.map_bounds_input0 dm s1 s2 d1 d2 fe1 fe2 simd).getD 2
        (.elementwiseDim 0 0)) R).contains (y * s2 + d2 * ky) ∧
     (evalDimMap ((DepthwiseConv2DOp.map_bounds_input0 dm s1 s2 d1 d2 fe1 fe2 simd).getD 3
        (.elementwiseDim 0 0)) R).contains b) ∧
    ((evalDimMap ((PoolOp.map_bounds_input0 s1 s2 fs1 fs2).getD 0
        (.elementwiseDim 0 0)) R).contains oc ∧
     (evalDimMap ((PoolOp.map_bounds_input0 s1 s2 fs1 fs2).getD 1
        (.elementwiseDim 0 0)) R).contains (x * s1 + t1) ∧
     (evalDimMap ((PoolOp.map_bounds_input0 s1 s2 fs1 fs2).getD 2
        (.elementwiseDim 0 0)) R).contains (y * s2 + t2) ∧
     (evalDimMap ((PoolOp.map_bounds_input0 s1 s2 fs1 fs2).getD 3
        (.elementwiseDim 0 0)) R).contains b) := by
  obtain ⟨hc0, hc1⟩ := hc
  have channel_conv :
      (evalDimMap (.constantDim ⟨0, align_up inExt0 u - 1⟩) R).contains c := by
    refine ⟨hc0, ?_⟩
    have ha := le_align_up inExt0 u hu
    have h2 := Int.add_one_le_iff.mpr hc1
    simp only [evalDimMap]
    linarith
  have spatial1_conv :
      (evalDimMap (.downsampleDim 1 s1 ⟨0, d1 * (fe1 - 1)⟩) R).contains (x * s1 + d1 * kx) :=
    downsample_contains _ _ x s1 (d1 * kx) (d1 * (fe1 - 1)) hs1 hx.1 hx.2
      (mul_nonneg hd1 hkx.1) (mul_le_mul_of_nonneg_left hkx.2 hd1)
  have spatial2_conv :
      (evalDimMap (.downsampleDim 2 s2 ⟨0, d2 * (fe2 - 1)⟩) R).contains (y * s2 + d2 * ky) :=
    downsample_contains _ _ y s2 (d2 * ky) (d2 * (fe2 - 1)) hs2 hy.1 hy.2
      (mul_nonneg hd2 hky.1) (mul_le_mul_of_nonneg_left hky.2 hd2)
  have spatial1_pool :
      (evalDimMap (.downsampleDim 1 s1 ⟨0, fs1 - 1⟩) R).contains (x * s1 + t1) :=
    downsample_contains _ _ x s1 t1 (fs1 - 1) hs1 hx.1 hx.2 ht1.1 ht1.2
  have spatial2_pool :
      (evalDimMap (.downsampleDim 2 s2 ⟨0, fs2 - 1⟩) R).contains (y * s2 + t2) :=
    downsample_contains _ _ y s2 t2 (fs2 - 1) hs2 hy.1 hy.2 ht2.1 ht2.2
  have batch : (evalDimMap (.elementwiseDim 3 0) R).contains b :=
    ⟨by simpa [evalDimMap] using hb.1, by simpa [evalDimMap] using hb.2⟩
  have channel_pool : (evalDimMap (.elementwiseDim 0 0) R).contains oc :=
    ⟨by simpa [evalDimMap] using hoc.1, by simpa [evalDimMap] using hoc.2⟩
  have channel_dw :
      (evalDimMap (if dm = 1 then DimMap.alignedDim (.upsampleDim 0 dm) simd
         else .upsampleDim 0 dm) R).contains (oc / dm) := by
    have hinner : (evalDimMap (.upsampleDim 0 dm) R).contains (oc / dm) :=
      ⟨Int.ediv_le_ediv hdm hoc.1, Int.ediv_le_ediv hdm hoc.2⟩
    split_ifs with hdm1
    · exact alignInterval_contains _ _ _ hsimd hinner
    · exact hinner
  exact ⟨⟨channel_conv, spatial1_conv, spatial2_conv, batch⟩,
    ⟨channel_dw, spatial1_conv, spatial2_conv, batch⟩,
    ⟨channel_pool, spatial1_pool, spatial2_pool, batch⟩⟩

/-- C1, witness: the coverage theorem applied to a concrete configuration
    (stride 2, dilation 1, 3x3 filter, unroll 4, depth multiplier 2, SIMD
    alignment 16, 2x2 pooling window) at a concrete output point and tap. -/
theorem C1_witness :
    ((evalDimMap ((Conv2DOp.map_bounds_input0 3 2 2 1 1 3 3 4).getD 0
        (.elementwiseDim 0 0)) c1R).contains 1 ∧
     (evalDimMap ((Conv2DOp.map_bounds_input0 3 2 2 1 1 3 3 4).getD 1
        (.elementwiseDim 0 0)) c1R).contains (2 * 2 + 1 * 1) ∧
     (evalDimMap ((Conv2DOp.map_bounds_input0 3 2 2 1 1 3 3 4).getD 2
        (.elementwiseDim 0 0)) c1R).contains (0 * 2 + 1 * 0) ∧
     (evalDimMap ((Conv2DOp.map_bounds_input0 3 2 2 1 1 3 3 4).getD 3
        (.elementwiseDim 0 0)) c1R).contains 0) ∧
    ((evalDimMap ((DepthwiseConv2DOp.map_bounds_input0 2 2 2 1 1 3 3 16).getD 0
        (.elementwiseDim 0 0)) c1R).contains (2 / 2) ∧
     (evalDimMap ((DepthwiseConv2DOp.map_bounds_input0 2 2 2 1 1 3 3 16).getD 1
        (.elementwiseDim 0 0)) c1R).contains (2 * 2 + 1 * 1) ∧
     (evalDimMap ((DepthwiseConv2DOp.map_bounds_input0 2 2 2 1 1 3 3 16).getD 2
        (.elementwiseDim 0 0)) c1R).contains (0 * 2 + 1 * 0) ∧
     (evalDimMap ((DepthwiseConv2DOp.map_bounds_input0 2 2 2 1 1 3 3 16).getD 3
        (.elementwiseDim 0 0)) c1R).contains 0) ∧
    ((evalDimMap ((PoolOp.map_bounds_input0 2 2 2 2).getD 0
        (.elementwiseDim 0 0)) c1R).contains 2 ∧
     (evalDimMap ((PoolOp.map_bounds_input0 2 2 2 2).getD 1
        (.elementwiseDim 0 0)) c1R).contains (2 * 2 + 1) ∧
     (evalDimMap ((PoolOp.map_bounds_input0 2 2 2 2).getD 2
        (.elementwiseDim 0 0)) c1R).contains (0 * 2 + 0) ∧
     (evalDimMap ((PoolOp.map_bounds_input0 2 2 2 2).getD 3
        (.elementwiseDim 0 0)) c1R).contains 0) :=
  C1_map_bounds_no_under_fetch c1R 3 2 2 1 1 3 3 4 2 16 2 2 1 2 0 0 1 0 1 0 2
    (by decide) (by decide) (by decide) (by decide) (by decide) (by decide) (by decide)
    (by decide) (by decide) (by decide) (by decide) (by decide) (by decide) (by decide)
    (by decide) (by decide)

/-- C2, witness: the amended dispatch facts instantiated at a float input
    type. -/
theorem C2_witness :
    (BinaryOp.execute_outcome .f32 .u8 .u8 = .fatal
       ↔ ¬(HalideElemType.f32 = .u8 ∧ HalideElemType.u8 = .u8 ∧ HalideElemType.u8 = .u8)) ∧
    (ReductionOp.execute_outcome .f32 .u8 = .silentNoop
       ↔ ¬(HalideElemType.f32 = .u8 ∧ HalideElemType.u8 = .u8)) ∧
    (UnaryOp.execute_outcome .f32 .u8 .Logistic = .silentNoop
       ↔ ¬(HalideElemType.f32 = .u8 ∧ HalideElemType.u8 = .u8)) :=
  C2_amended .f32 .u8 .u8 .Logistic

/-- C3, witness: the requantize path characterization instantiated at two
    differing QuantizationInfo values and two non-overlapping byte ranges. -/
theorem C3_witness :
    (requantize_path ⟨[1], [0]⟩ ⟨[2], [0]⟩ 0 4 4 8 = .copyBytes
       ↔ (⟨[1], [0]⟩ : QuantizationInfo) = ⟨[2], [0]⟩ ∧ is_alias 0 4 4 8 = false) ∧
    (requantize_path ⟨[1], [0]⟩ ⟨[2], [0]⟩ 0 4 4 8 = .skipAliased
       ↔ (⟨[1], [0]⟩ : QuantizationInfo) = ⟨[2], [0]⟩ ∧ is_alias 0 4 4 8 = true) ∧
    (requantize_path ⟨[1], [0]⟩ ⟨[2], [0]⟩ 0 4 4 8 = .addRescale
       ↔ (⟨[1], [0]⟩ : QuantizationInfo) ≠ ⟨[2], [0]⟩) ∧
    (requantize_contents ⟨[1], [0]⟩ ⟨[2], [0]⟩ 0 4 4 8 [7, 7] [9, 9] =
       if (⟨[1], [0]⟩ : QuantizationInfo) = ⟨[2], [0]⟩
       then some (if is_alias 0 4 4 8 then [9, 9] else [7, 7])
       else none) :=
  C3_requantize ⟨[1], [0]⟩ ⟨[2], [0]⟩ 0 4 4 8 [7, 7] [9, 9]

/-- C7, witness: the amended fusability characterization applied to a buffer
    with min 0, positive strides and tightly packed dimension 1. -/
theorem C7_witness :
    can_fuse [⟨0, 2, 1⟩, ⟨0, 3, 2⟩] 0 1 = true ∧
    (fuse [⟨0, 2, 1⟩, ⟨0, 3, 2⟩] 0 1).length + 1 = 2 ∧
    (dimOf (fuse [⟨0, 2, 1⟩, ⟨0, 3, 2⟩] 0 1) 0).extent = 2 * 3 := by
  have h := C7_amended
  exact ⟨(h.1 [⟨0, 2, 1⟩, ⟨0, 3, 2⟩] 0 1).mpr (by decide),
    (h.2 [⟨0, 2, 1⟩, ⟨0, 3, 2⟩] 0 (by decide)).1,
    ((h.2 [⟨0, 2, 1⟩, ⟨0, 3, 2⟩] 0 (by decide)).2).trans (by decide)⟩

end hannk
